import Mathlib

/-!
Verification of the CasOC transcription core (`CasOCTranscription.h`) of
opensim-moco: the flatten/expand codec between named variable blocks and the
flat NLP decision vector, time-grid scaling, bound assignment, and the solve
orchestration.  Definitions are shallow embeddings of the corresponding C++
members of `CasOC::Transcription`.
-/

namespace CasOC

/-- Variable-block identifiers.  In the C++ source `CasOC::Var` is an `enum`
whose values are compared with `operator<` (i.e. by their underlying integral
value) inside `getSortedVarKeys`; we model it by the naturals with their usual
order.  Two distinguished enum values are referenced by `solve`. -/
abbrev Var := Nat

/-- The enum value `Var::initial_time`. -/
def Var.initial_time : Var := 0

/-- The enum value `Var::final_time`. -/
def Var.final_time : Var := 1

/-- A casadi matrix (`casadi::DM` / `casadi::MX`): a rows-by-columns block
whose entries are stored in column-major order (casadi's dense layout).
The element type is a parameter because `flatten` in the source is a template
over the casadi matrix type. -/
structure Mat (α : Type) where
  rows : Nat
  cols : Nat
  data : List α
deriving DecidableEq, Repr

/-- `numel()` of a casadi matrix: rows times columns. -/
def Mat.numel {α : Type} (m : Mat α) : Nat := m.rows * m.cols

/-- Well-formedness of a matrix: the stored data has exactly
rows-times-columns entries (an invariant casadi maintains). -/
def Mat.wf {α : Type} (m : Mat α) : Prop := m.data.length = m.rows * m.cols

instance {α : Type} (m : Mat α) : Decidable m.wf := by
  unfold Mat.wf; infer_instance

/-- `CasOC::Variables<T>` is `std::unordered_map<Var, T>`; we model the map
contents as an association list of key-block pairs (the container's element
order is arbitrary, which is exactly why `getSortedVarKeys` sorts). -/
abbrev Variables (α : Type) := List (Var × Mat α)

/-- The list of keys held by the map (each key occurs once in a map). -/
def Variables.keys {α : Type} (vars : Variables α) : List Var :=
  vars.map Prod.fst

/-- Lookup (`vars.at(key)` when the key is present). -/
def Variables.at? {α : Type} (vars : Variables α) (k : Var) : Option (Mat α) :=
  (vars.find? (fun kv => kv.1 == k)).map Prod.snd

/-- Total lookup used below; on keys taken from the map itself it agrees with
`vars.at(key)` in the source. -/
def Variables.atD {α : Type} (vars : Variables α) (k : Var) : Mat α :=
  (vars.at? k).getD ⟨0, 0, []⟩

/-- Map well-formedness: keys are distinct (a map invariant) and every block
is a well-formed matrix. -/
def Variables.wf {α : Type} (vars : Variables α) : Prop :=
  vars.keys.Nodup ∧ ∀ kv ∈ vars, Mat.wf kv.2

/-- `Transcription::getSortedVarKeys`: collect the map's keys and `std::sort`
them, giving the canonical deterministic ordering of variable blocks. -/
def getSortedVarKeys {α : Type} (vars : Variables α) : List Var :=
  (Variables.keys vars).insertionSort (· ≤ ·)

/-- `Transcription::flatten`: concatenate the blocks into one column vector
(`T::veccat`) following the sorted key order.  A casadi `veccat` vectorizes
each block column-major and stacks them; we return the entry list of the
resulting column vector. -/
def flatten {α : Type} (vars : Variables α) : List α :=
  ((getSortedVarKeys vars).map (fun k => (Variables.atD vars k).data)).flatten

/-- Helper for `expand`: walk the sorted keys with the running `offset`,
cutting `value.numel()` entries for each key and reshaping them to the
block's stored shape (casadi `reshape` of a column slice is column-major, so
the entry list is the slice itself). -/
def expandGo {α β : Type} (m_vars : Variables β) (x : List α) :
    List Var → Nat → Variables α
  | [], _ => []
  | key :: keys, offset =>
    let value := Variables.atD m_vars key
    (key, ⟨value.rows, value.cols, (x.drop offset).take value.numel⟩) ::
      expandGo m_vars x keys (offset + value.numel)

/-- `Transcription::expand`: convert the flat column vector `x` back into
separate variables, using the shapes recorded in `m_vars`. -/
def expand {α β : Type} (m_vars : Variables β) (x : List α) : Variables α :=
  expandGo m_vars x (getSortedVarKeys m_vars) 0

/-- Total element count of the store in sorted-key order; this is the length
of `flatten m_vars` for a well-formed store. -/
def totalNumel {α : Type} (vars : Variables α) : Nat :=
  ((getSortedVarKeys vars).map (fun k => (Variables.atD vars k).numel)).sum

/-- Total element count of a prefix of keys. -/
def partialNumel {α : Type} (vars : Variables α) (ks : List Var) : Nat :=
  (ks.map (fun k => (Variables.atD vars k).numel)).sum

/-- Offset of key `k` inside the flat vector: the total size of the sorted
keys strictly preceding `k`. -/
def sortedOffset {α : Type} (vars : Variables α) (k : Var) : Nat :=
  partialNumel vars ((getSortedVarKeys vars).takeWhile (fun k2 => k2 != k))

lemma totalNumel_eq_partial {α : Type} (vars : Variables α) :
    totalNumel vars = partialNumel vars (getSortedVarKeys vars) := rfl

lemma at?_cons {α : Type} (vars : Variables α) (k k' : Var) (m : Mat α) :
    Variables.at? ((k, m) :: vars) k' =
      if k = k' then some m else Variables.at? vars k' := by
  by_cases h : k = k'
  · subst h
    unfold Variables.at?
    rw [List.find?_cons_of_pos _ (by simp)]
    simp
  · unfold Variables.at?
    rw [List.find?_cons_of_neg _ (by simp [h]), if_neg h]

lemma keys_expandGo {α β : Type} (m_vars : Variables β) (x : List α) :
    ∀ (ks : List Var) (off : Nat),
      Variables.keys (expandGo m_vars x ks off) = ks
  | [], _ => rfl
  | k :: ks, off => by
    simp only [expandGo, Variables.keys, List.map_cons]
    exact congrArg (k :: ·) (keys_expandGo m_vars x ks _)

lemma at?_expandGo {α β : Type} (m_vars : Variables β) (x : List α) :
    ∀ (ks : List Var) (off : Nat) (k : Var), ks.Nodup → k ∈ ks →
      Variables.at? (expandGo m_vars x ks off) k =
        some ⟨(Variables.atD m_vars k).rows, (Variables.atD m_vars k).cols,
          (x.drop (off + partialNumel m_vars (ks.takeWhile (fun k2 => k2 != k)))).take
            (Variables.atD m_vars k).numel⟩
  | [], _, k, _, hk => absurd hk (List.not_mem_nil k)
  | k0 :: ks, off, k, hnd, hk => by
    by_cases h : k0 = k
    · subst h
      simp only [expandGo, at?_cons, List.takeWhile_cons]
      simp [partialNumel]
    · have hkks : k ∈ ks := by
        rcases List.mem_cons.mp hk with h1 | h1
        · exact absurd h1.symm h
        · exact h1
      have ih := at?_expandGo m_vars x ks
        (off + (Variables.atD m_vars k0).numel) k (List.Nodup.of_cons hnd) hkks
      simp only [expandGo, at?_cons, if_neg h, ih, List.takeWhile_cons,
        bne_iff_ne.mpr h, partialNumel, List.map_cons, List.sum_cons]
      simp [Nat.add_assoc]

lemma flatten_expandGo {α β : Type} (m_vars : Variables β) (x : List α) :
    ∀ (ks : List Var), ks.Nodup → ∀ (off : Nat),
      (ks.map (fun k => (Variables.atD (expandGo m_vars x ks off) k).data)).flatten =
        (x.drop off).take (partialNumel m_vars ks)
  | [], _, off => by simp [partialNumel]
  | k0 :: ks, hnd, off => by
    have hne : ∀ k ∈ ks, k0 ≠ k := fun k hk h => (List.nodup_cons.mp hnd).1 (h ▸ hk)
    have hmap : ks.map
        (fun k => (Variables.atD (expandGo m_vars x (k0 :: ks) off) k).data) =
        ks.map (fun k =>
          (Variables.atD (expandGo m_vars x ks (off + (Variables.atD m_vars k0).numel)) k).data) := by
      refine List.map_congr_left (fun k hk => ?_)
      simp only [expandGo, Variables.atD, at?_cons, if_neg (hne k hk)]
    have hhead : Variables.atD (expandGo m_vars x (k0 :: ks) off) k0 =
        ⟨(Variables.atD m_vars k0).rows, (Variables.atD m_vars k0).cols,
          (x.drop off).take (Variables.atD m_vars k0).numel⟩ := by
      simp [expandGo, Variables.atD, at?_cons]
    have ih := flatten_expandGo m_vars x ks (List.Nodup.of_cons hnd)
      (off + (Variables.atD m_vars k0).numel)
    simp only [List.map_cons, List.flatten_cons, hmap, ih, hhead, partialNumel,
      List.map_cons, List.sum_cons]
    rw [List.take_add, ← List.drop_drop]

lemma sortedKeys_nodup {α : Type} (vars : Variables α)
    (h : (Variables.keys vars).Nodup) : (getSortedVarKeys vars).Nodup :=
  (List.perm_insertionSort _ _).nodup_iff.mpr h

lemma sortedKeys_sorted {α : Type} (vars : Variables α) :
    List.Sorted (· ≤ ·) (getSortedVarKeys vars) :=
  List.sorted_insertionSort _ _

lemma sortedKeys_expand {α β : Type} (m_vars : Variables β) (x : List α) :
    getSortedVarKeys (expand m_vars x) = getSortedVarKeys m_vars := by
  unfold getSortedVarKeys expand
  rw [keys_expandGo]
  exact (sortedKeys_sorted m_vars).insertionSort_eq

/-- The general round-trip: any flat vector at least as long as the store is
recovered up to its first `totalNumel` entries. -/
lemma flatten_expand_take {α β : Type} (m_vars : Variables β)
    (h1 : (Variables.keys m_vars).Nodup) (x : List α) :
    flatten (expand m_vars x) = x.take (totalNumel m_vars) := by
  unfold flatten
  rw [sortedKeys_expand]
  unfold expand
  rw [flatten_expandGo m_vars x (getSortedVarKeys m_vars) (sortedKeys_nodup m_vars h1) 0]
  rw [List.drop_zero, totalNumel_eq_partial]

lemma mem_keys_of_at? {α : Type} (vars : Variables α) (k : Var) (m : Mat α)
    (h : Variables.at? vars k = some m) : (k, m) ∈ vars := by
  unfold Variables.at? at h
  rcases Option.map_eq_some'.mp h with ⟨kv, hfind, hsnd⟩
  have hmem := List.mem_of_find?_eq_some hfind
  have hfst : kv.1 = k := by simpa using List.find?_some hfind
  have : kv = (k, m) := by
    cases kv; simp_all
  exact this ▸ hmem

lemma at?_isSome_iff {α : Type} (vars : Variables α) (k : Var) :
    (Variables.at? vars k).isSome ↔ k ∈ Variables.keys vars := by
  unfold Variables.at? Variables.keys
  rw [Option.isSome_map']
  rw [List.find?_isSome]
  constructor
  · rintro ⟨kv, hmem, hk⟩
    exact List.mem_map.mpr ⟨kv, hmem, by simpa using hk⟩
  · rintro hmem
    rcases List.mem_map.mp hmem with ⟨kv, hkv, hfst⟩
    exact ⟨kv, hkv, by simp [hfst]⟩

lemma length_flatten_eq_totalNumel {α : Type} (vars : Variables α)
    (h2 : ∀ kv ∈ vars, Mat.wf kv.2) :
    (flatten vars).length = totalNumel vars := by
  unfold flatten totalNumel
  rw [List.length_flatten, List.map_map]
  refine congrArg List.sum (List.map_congr_left (fun k hk => ?_))
  have hkmem : k ∈ Variables.keys vars := by
    have := (List.perm_insertionSort (· ≤ ·) (Variables.keys vars)).mem_iff.mp hk
    exact this
  have hsome : (Variables.at? vars k).isSome := (at?_isSome_iff vars k).mpr hkmem
  rcases Option.isSome_iff_exists.mp hsome with ⟨m, hm⟩
  have hmem := mem_keys_of_at? vars k m hm
  have hwf := h2 _ hmem
  simp only [Function.comp, Variables.atD, hm, Option.getD_some]
  exact hwf

lemma slice_take {α : Type} (x : List α) (off n T : Nat) (h : off + n ≤ T) :
    ((x.take T).drop off).take n = (x.drop off).take n := by
  rw [List.drop_take, List.take_take, Nat.min_eq_left (by omega)]

lemma expandGo_take {α β : Type} (m_vars : Variables β) (x : List α) (T : Nat) :
    ∀ (ks : List Var) (off : Nat), off + partialNumel m_vars ks ≤ T →
      expandGo m_vars x ks off = expandGo m_vars (x.take T) ks off
  | [], _, _ => rfl
  | k0 :: ks, off, h => by
    have hn : off + (Variables.atD m_vars k0).numel ≤ T := by
      simp [partialNumel] at h; omega
    have hrest : off + (Variables.atD m_vars k0).numel + partialNumel m_vars ks ≤ T := by
      simp [partialNumel] at h ⊢; omega
    simp only [expandGo]
    rw [slice_take x off _ T hn]
    rw [← expandGo_take m_vars x T ks _ hrest]

lemma expandGo_wf {α β : Type} (m_vars : Variables β) (x : List α) :
    ∀ (ks : List Var) (off : Nat), off + partialNumel m_vars ks ≤ x.length →
      ∀ kv ∈ expandGo m_vars x ks off, Mat.wf kv.2
  | [], _, _, kv, hkv => absurd hkv (List.not_mem_nil kv)
  | k0 :: ks, off, h, kv, hkv => by
    simp only [expandGo, List.mem_cons] at hkv
    rcases hkv with h1 | h1
    · subst h1
      have hlen : off + (Variables.atD m_vars k0).numel ≤ x.length := by
        simp [partialNumel] at h; omega
      simp only [Mat.wf, List.length_take, List.length_drop]
      simp only [Mat.numel] at hlen ⊢
      omega
    · exact expandGo_wf m_vars x ks (off + (Variables.atD m_vars k0).numel)
        (by simp [partialNumel] at h ⊢; omega) kv h1

/-- A concrete two-block store used to instantiate the hypotheses of the
codec theorems: a 1-by-2 final-time-keyed block and a 2-by-1
initial-time-keyed block. -/
def exampleVars : Variables ℤ :=
  [(Var.final_time, ⟨1, 2, [7, 8]⟩), (Var.initial_time, ⟨2, 1, [1, 2]⟩)]

/-- The same map contents as `exampleVars` held in the opposite container
order. -/
def exampleVarsPerm : Variables ℤ :=
  [(Var.initial_time, ⟨2, 1, [1, 2]⟩), (Var.final_time, ⟨1, 2, [7, 8]⟩)]

instance {α : Type} (vars : Variables α) : Decidable (Variables.wf vars) := by
  unfold Variables.wf; infer_instance

/-- **C1**: for every well-formed variable store, `expand` is the exact
inverse of `flatten` with respect to the canonical sorted-key order and the
original per-block shapes: `flatten (expand v) = v` for every flat vector `v`
produced by a prior `flatten` of that store's variables. -/
theorem flatten_expand_roundtrip {β : Type} (m_vars : Variables β)
    (hwf : Variables.wf m_vars) (v : List β) (hv : v = flatten m_vars) :
    flatten (expand m_vars v) = v := by
  subst hv
  rw [flatten_expand_take m_vars hwf.1 (flatten m_vars),
    ← length_flatten_eq_totalNumel m_vars hwf.2]
  exact List.take_length _

/-- Witness for C1 at the concrete store `exampleVars`. -/
theorem flatten_expand_roundtrip_witness :
    flatten (expand exampleVars (flatten exampleVars)) = flatten exampleVars :=
  flatten_expand_roundtrip exampleVars (by decide) _ rfl

/-- **C2**: `flatten` is deterministic in the map contents rather than in the
container's iteration or insertion order: two variable maps holding equal
key-to-block assignments (equal lookups) produce the same flat vector,
because the concatenation order is the explicit total sort of the keys. -/
theorem flatten_deterministic {α : Type} (vars1 vars2 : Variables α)
    (h1 : (Variables.keys vars1).Nodup) (h2 : (Variables.keys vars2).Nodup)
    (hsame : ∀ k, Variables.at? vars1 k = Variables.at? vars2 k) :
    flatten vars1 = flatten vars2 := by
  have hmem : ∀ k, k ∈ Variables.keys vars1 ↔ k ∈ Variables.keys vars2 := by
    intro k
    rw [← at?_isSome_iff, ← at?_isSome_iff, hsame k]
  have hperm : List.Perm (Variables.keys vars1) (Variables.keys vars2) :=
    List.perm_of_nodup_nodup_toFinset_eq h1 h2
      (Finset.ext fun k => by
        rw [List.mem_toFinset, List.mem_toFinset]; exact hmem k)
  have hsortper : List.Perm (getSortedVarKeys vars1) (getSortedVarKeys vars2) :=
    ((List.perm_insertionSort _ _).trans hperm).trans
      (List.perm_insertionSort _ _).symm
  have hsorteq : getSortedVarKeys vars1 = getSortedVarKeys vars2 :=
    List.eq_of_perm_of_sorted hsortper (sortedKeys_sorted vars1)
      (sortedKeys_sorted vars2)
  unfold flatten
  rw [hsorteq]
  refine congrArg List.flatten (List.map_congr_left fun k _ => ?_)
  unfold Variables.atD
  rw [hsame k]

/-- Witness for C2: the two orderings of the same contents flatten equally. -/
theorem flatten_deterministic_witness :
    flatten exampleVars = flatten exampleVarsPerm :=
  flatten_deterministic exampleVars exampleVarsPerm (by decide) (by decide)
    (fun k => match k with
      | 0 => rfl
      | 1 => rfl
      | Nat.succ (Nat.succ _) => rfl)

/-- **C10**: for every flat vector `x` at least as long as the store's total
element count, `expand` returns a map with exactly the store's keys, each
block being the contiguous slice of `x` at that key's sorted-order offset
reshaped to the stored rows-by-columns shape, and entries of `x` beyond the
total element count are ignored. -/
theorem expand_spec {α β : Type} (m_vars : Variables β) (x : List α)
    (h1 : (Variables.keys m_vars).Nodup) (hx : totalNumel m_vars ≤ x.length) :
    (∀ k, k ∈ Variables.keys (expand m_vars x) ↔ k ∈ Variables.keys m_vars) ∧
    (∀ k, k ∈ Variables.keys m_vars →
      Variables.at? (expand m_vars x) k =
        some ⟨(Variables.atD m_vars k).rows, (Variables.atD m_vars k).cols,
          (x.drop (sortedOffset m_vars k)).take (Variables.atD m_vars k).numel⟩) ∧
    (∀ kv ∈ expand m_vars x, Mat.wf kv.2) ∧
    expand m_vars x = expand m_vars (x.take (totalNumel m_vars)) := by
  have hkeys : Variables.keys (expand m_vars x) = getSortedVarKeys m_vars :=
    keys_expandGo m_vars x (getSortedVarKeys m_vars) 0
  have hmemsort : ∀ k, k ∈ getSortedVarKeys m_vars ↔ k ∈ Variables.keys m_vars :=
    fun k => (List.perm_insertionSort _ _).mem_iff
  refine ⟨?_, ?_, ?_, ?_⟩
  · intro k
    rw [hkeys]
    exact hmemsort k
  · intro k hk
    have := at?_expandGo m_vars x (getSortedVarKeys m_vars) 0 k
      (sortedKeys_nodup m_vars h1) ((hmemsort k).mpr hk)
    rw [Nat.zero_add] at this
    exact this
  · exact expandGo_wf m_vars x (getSortedVarKeys m_vars) 0
      (by rw [Nat.zero_add, ← totalNumel_eq_partial]; exact hx)
  · exact expandGo_take m_vars x (totalNumel m_vars) (getSortedVarKeys m_vars) 0
      (by rw [Nat.zero_add, ← totalNumel_eq_partial])

/-- Witness for C10 at a concrete store and a longer-than-needed vector. -/
theorem expand_spec_witness :
    (∀ k, k ∈ Variables.keys (expand exampleVars ([10, 20, 30, 40, 50] : List ℤ)) ↔
      k ∈ Variables.keys exampleVars) ∧
    (∀ k, k ∈ Variables.keys exampleVars →
      Variables.at? (expand exampleVars ([10, 20, 30, 40, 50] : List ℤ)) k =
        some ⟨(Variables.atD exampleVars k).rows,
          (Variables.atD exampleVars k).cols,
          (([10, 20, 30, 40, 50] : List ℤ).drop
            (sortedOffset exampleVars k)).take
            (Variables.atD exampleVars k).numel⟩) ∧
    (∀ kv ∈ expand exampleVars ([10, 20, 30, 40, 50] : List ℤ), Mat.wf kv.2) ∧
    expand exampleVars ([10, 20, 30, 40, 50] : List ℤ) =
      expand exampleVars (([10, 20, 30, 40, 50] : List ℤ).take
        (totalNumel exampleVars)) :=
  expand_spec exampleVars ([10, 20, 30, 40, 50] : List ℤ) (by decide) (by decide)

/-- The values a bound entry can take: a finite double (modelled by a
rational) or one of the two infinities that `setVariableBounds` writes via
`std::numeric_limits<double>::infinity()`. -/
inductive Double where
  | fin (q : ℚ)
  | negInf
  | posInf
deriving DecidableEq, Repr

/-- The numeric order on the values above (the code we model never produces
NaN). -/
def Double.le : Double → Double → Prop
  | .negInf, _ => True
  | _, .posInf => True
  | .fin a, .fin b => a ≤ b
  | .posInf, .fin _ => False
  | .posInf, .negInf => False
  | .fin _, .negInf => False

instance : ∀ a b : Double, Decidable (Double.le a b)
  | .negInf, .fin _ => isTrue trivial
  | .negInf, .negInf => isTrue trivial
  | .negInf, .posInf => isTrue trivial
  | .fin _, .posInf => isTrue trivial
  | .fin a, .fin b => inferInstanceAs (Decidable (a ≤ b))
  | .fin _, .negInf => isFalse (fun h => h)
  | .posInf, .posInf => isTrue trivial
  | .posInf, .fin _ => isFalse (fun h => h)
  | .posInf, .negInf => isFalse (fun h => h)

/-- Modelled from the spec: the `CasOC::Bounds` specification type is defined
outside the available sources; per the spec a bound specification either
carries a (lower, upper) pair or is unset, and the transcription header reads
exactly the members `isSet()`, `lower` and `upper`. -/
structure Bounds where
  lower : Double
  upper : Double
  isSet : Bool
deriving DecidableEq, Repr

/-- Apply `f` to every entry together with its linear position, counting from
`p`. -/
def mapWithPos {α : Type} (f : Nat → α → α) : List α → Nat → List α
  | [], _ => []
  | a :: as, p => f p a :: mapWithPos f as (p + 1)

/-- The casadi submatrix assignment `m(rowIndices, columnIndices) = v`:
every entry whose row index is listed in `rowIndices` and whose column index
is listed in `columnIndices` is overwritten with the scalar `v`.  In the
column-major layout, linear position `p` holds row `p % rows` and column
`p / rows`. -/
def Mat.assign {α : Type} (m : Mat α) (rowIndices columnIndices : List Nat)
    (v : α) : Mat α :=
  ⟨m.rows, m.cols,
    mapWithPos
      (fun p a =>
        if p % m.rows ∈ rowIndices ∧ p / m.rows ∈ columnIndices then v else a)
      m.data 0⟩

/-- Entry (i, j) of a matrix in the column-major layout. -/
def Mat.entry? {α : Type} (m : Mat α) (i j : Nat) : Option α :=
  m.data[j * m.rows + i]?

/-- The map assignment `vars[k] = f (vars[k])` on an existing key (every use
in the source writes to a key created at transcription time). -/
def Variables.update {α : Type} (vars : Variables α) (k : Var)
    (f : Mat α → Mat α) : Variables α :=
  vars.map (fun kv => if kv.1 = k then (kv.1, f kv.2) else kv)

/-- An opaque casadi option value (`casadi::GenericType`); the transcription
never inspects these. -/
abbrev GenericType := Nat

/-- `casadi::Dict`: string-keyed option values. -/
abbrev Dict := List (String × GenericType)

/-- `std::map::operator[]` followed by assignment: overwrite the value held
at `k` when the key is present, append the pair otherwise. -/
def Dict.set (d : Dict) (k : String) (v : GenericType) : Dict :=
  if (d.find? (fun kv => kv.1 == k)).isSome
  then d.map (fun kv => if kv.1 = k then (k, v) else kv)
  else d ++ [(k, v)]

/-- Modelled from the spec: the `CasOC::Solver` accessor surface that
`Transcription::solve` uses (`CasOCSolver.h` is not among the available
sources): the chosen optimizer plugin name (`getOptimSolver`), its plugin
options (`getPluginOptions`) and the solver-specific options
(`getSolverOptions`, an opaque dictionary value owned by the solver
configuration owner). -/
structure Solver where
  optimSolver : String
  pluginOptions : Dict
  solverOptions : GenericType
deriving DecidableEq, Repr

/-- Opaque handle for a symbolic casadi expression (`casadi::MX`); `solve`
moves these around without interpreting them. -/
abbrev MX := Nat

/-- The member state of `CasOC::Transcription` that the modelled operations
read or write (`m_problem` is an opaque handle to the externally owned
problem). -/
structure Transcription where
  m_solver : Solver
  m_problem : Nat
  m_numGridPoints : Nat
  m_grid : List ℚ
  m_vars : Variables MX
  m_lowerBounds : Variables Double
  m_upperBounds : Variables Double
  m_objective : MX
  m_constraints : List MX
  m_constraintsLowerBounds : List (Mat Double)
  m_constraintsUpperBounds : List (Mat Double)
deriving DecidableEq, Repr

/-- `Transcription::createTimes`: `(finalTime - initialTime) * m_grid +
initialTime`, the scalar-affine image of the normalized grid. -/
def createTimes (m_grid : List ℚ) (initialTime finalTime : ℚ) : List ℚ :=
  m_grid.map (fun g => (finalTime - initialTime) * g + initialTime)

/-- `Transcription::setVariableBounds`: write the specification into the
selected region of the lower/upper bound matrices of `var`; a set
specification writes its `lower` and `upper`, an unset one writes the
infinities. -/
def setVariableBounds (t : Transcription) (var : Var)
    (rowIndices columnIndices : List Nat) (bounds : Bounds) : Transcription :=
  if bounds.isSet then
    { t with
      m_lowerBounds := Variables.update t.m_lowerBounds var
        (fun m => Mat.assign m rowIndices columnIndices bounds.lower),
      m_upperBounds := Variables.update t.m_upperBounds var
        (fun m => Mat.assign m rowIndices columnIndices bounds.upper) }
  else
    { t with
      m_lowerBounds := Variables.update t.m_lowerBounds var
        (fun m => Mat.assign m rowIndices columnIndices Double.negInf),
      m_upperBounds := Variables.update t.m_upperBounds var
        (fun m => Mat.assign m rowIndices columnIndices Double.posInf) }

/-- `CasOC::Iterate`: a full assignment of the variables plus a time
vector (the field `vars` models the C++ member `variables`, whose name is a
reserved word here). -/
structure Iterate where
  vars : Variables ℚ
  times : List ℚ
deriving DecidableEq, Repr

/-- The raw statistics dictionary of a solver evaluation
(`nlpFunc.stats()`); opaque to the transcription. -/
abbrev Stats := List (String × GenericType)

/-- `CasOC::Solution`: an iterate plus the raw solver statistics. -/
structure Solution extends Iterate where
  stats : Stats
deriving DecidableEq, Repr

/-- The symbolic NLP handed to `casadi::nlpsol`, together with the options
dictionary and the plugin choice. -/
structure NlpProblem where
  plugin : String
  x : List MX
  f : MX
  g : List MX
  options : Dict
deriving DecidableEq, Repr

/-- The numeric inputs of the single `nlpFunc` evaluation. -/
structure NlpInputs where
  x0 : List ℚ
  lbx : List Double
  ubx : List Double
  lbg : List Double
  ubg : List Double
deriving DecidableEq, Repr

/-- What one external-solver evaluation returns: the flat solution vector
and the statistics of that evaluation. -/
structure NlpRaw where
  x : List ℚ
  stats : Stats
deriving DecidableEq, Repr

/-- Read a 1-by-1 block (the time variables) as a scalar. -/
def scalarOf (vars : Variables ℚ) (k : Var) : ℚ :=
  ((Variables.atD vars k).data).headD 0

/-- `Transcription::solve`, with the two external collaborators passed in
explicitly: `resample` stands for `Iterate::resample` (defined outside the
modelled header) and `nlpsolEval` stands for evaluating the solver function
produced by `casadi::nlpsol`.  The result carries the member state after the
call (the body assigns no member), the Solution, and the list of
external-solver invocations the body performs. -/
def solve (t : Transcription) (resample : Iterate → List ℚ → Iterate)
    (nlpsolEval : NlpProblem → NlpInputs → NlpRaw) (guessOrig : Iterate) :
    Transcription × Solution × List (NlpProblem × NlpInputs) :=
  let guess := resample guessOrig
    (createTimes t.m_grid (scalarOf guessOrig.vars Var.initial_time)
      (scalarOf guessOrig.vars Var.final_time))
  let options0 := t.m_solver.pluginOptions
  let options := if options0.isEmpty then options0
    else Dict.set options0 t.m_solver.optimSolver t.m_solver.solverOptions
  let nlp : NlpProblem :=
    ⟨t.m_solver.optimSolver, flatten t.m_vars, t.m_objective,
      t.m_constraints, options⟩
  let inputs : NlpInputs :=
    ⟨flatten guess.vars, flatten t.m_lowerBounds,
      flatten t.m_upperBounds,
      (t.m_constraintsLowerBounds.map Mat.data).flatten,
      (t.m_constraintsUpperBounds.map Mat.data).flatten⟩
  let nlpResult := nlpsolEval nlp inputs
  let vars := expand t.m_vars nlpResult.x
  let solution : Solution :=
    { vars := vars,
      times := createTimes t.m_grid (scalarOf vars Var.initial_time)
        (scalarOf vars Var.final_time),
      stats := nlpResult.stats }
  (t, solution, [(nlp, inputs)])

lemma mapWithPos_getElem? {α : Type} (f : Nat → α → α) :
    ∀ (l : List α) (p i : Nat),
      (mapWithPos f l p)[i]? = (l[i]?).map (f (p + i))
  | [], _, _ => by simp [mapWithPos]
  | a :: as, p, 0 => by simp [mapWithPos]
  | a :: as, p, i + 1 => by
    have h : p + 1 + i = p + (i + 1) := by omega
    simp only [mapWithPos, List.getElem?_cons_succ]
    rw [mapWithPos_getElem? f as (p + 1) i, h]

lemma assign_entry {α : Type} (m : Mat α) (rowIndices columnIndices : List Nat)
    (v : α) (i j : Nat) (hi : i ∈ rowIndices) (hj : j ∈ columnIndices)
    (hir : i < m.rows) (hjc : j < m.cols) (hwf : Mat.wf m) :
    Mat.entry? (Mat.assign m rowIndices columnIndices v) i j = some v := by
  have hidx : j * m.rows + i < m.data.length := by
    rw [hwf]
    calc j * m.rows + i < (j + 1) * m.rows := by rw [Nat.succ_mul]; omega
      _ ≤ m.cols * m.rows := Nat.mul_le_mul_right _ hjc
      _ = m.rows * m.cols := Nat.mul_comm _ _
  have hmod : (j * m.rows + i) % m.rows = i := by
    rw [Nat.mul_comm j m.rows, Nat.mul_add_mod, Nat.mod_eq_of_lt hir]
  have hdiv : (j * m.rows + i) / m.rows = j := by
    rw [Nat.mul_comm j m.rows, Nat.mul_add_div (by omega),
      Nat.div_eq_of_lt hir, Nat.add_zero]
  unfold Mat.assign Mat.entry?
  simp only
  rw [mapWithPos_getElem?, List.getElem?_eq_getElem hidx]
  simp only [Option.map_some', Nat.zero_add, hmod, hdiv]
  rw [if_pos ⟨hi, hj⟩]

lemma at?_update_self {α : Type} (f : Mat α → Mat α) :
    ∀ (vars : Variables α) (k : Var),
      Variables.at? (Variables.update vars k f) k =
        (Variables.at? vars k).map f
  | [], _ => rfl
  | (k0, m) :: vars, k => by
    by_cases h : k0 = k
    · subst h
      simp [Variables.update, at?_cons]
    · simp only [Variables.update, List.map_cons, if_neg h]
      rw [at?_cons, at?_cons, if_neg h, if_neg h]
      exact at?_update_self f vars k

lemma atD_update_self {α : Type} (vars : Variables α) (k : Var)
    (f : Mat α → Mat α) (hk : k ∈ Variables.keys vars) :
    Variables.atD (Variables.update vars k f) k = f (Variables.atD vars k) := by
  have hsome : (Variables.at? vars k).isSome := (at?_isSome_iff vars k).mpr hk
  rcases Option.isSome_iff_exists.mp hsome with ⟨m, hm⟩
  unfold Variables.atD
  rw [at?_update_self, hm]
  rfl

/-- A concrete transcription state, used to instantiate the hypotheses of
the orchestration theorems. -/
def exampleTranscription : Transcription :=
  { m_solver := ⟨"ipopt", [("print_time", 0)], 7⟩,
    m_problem := 0,
    m_numGridPoints := 3,
    m_grid := [0, 1/2, 1],
    m_vars := [(Var.initial_time, ⟨1, 1, [0]⟩), (Var.final_time, ⟨1, 1, [1]⟩),
      (2, ⟨2, 2, [2, 3, 4, 5]⟩)],
    m_lowerBounds := [(Var.initial_time, ⟨1, 1, [Double.fin 0]⟩),
      (Var.final_time, ⟨1, 1, [Double.negInf]⟩),
      (2, ⟨2, 2, [Double.fin 1, Double.fin 1, Double.fin 1, Double.fin 1]⟩)],
    m_upperBounds := [(Var.initial_time, ⟨1, 1, [Double.fin 0]⟩),
      (Var.final_time, ⟨1, 1, [Double.posInf]⟩),
      (2, ⟨2, 2, [Double.fin 9, Double.fin 9, Double.fin 9, Double.fin 9]⟩)],
    m_objective := 11,
    m_constraints := [12, 13],
    m_constraintsLowerBounds := [⟨1, 1, [Double.fin 0]⟩],
    m_constraintsUpperBounds := [⟨1, 1, [Double.fin 0]⟩] }

/-- A concrete guess iterate. -/
def exampleGuess : Iterate :=
  { vars := [(Var.initial_time, ⟨1, 1, [0]⟩), (Var.final_time, ⟨1, 1, [2]⟩),
      (2, ⟨2, 2, [3, 3, 3, 3]⟩)],
    times := [0, 1, 2] }

/-- A concrete external-solver oracle returning a fixed answer with a
non-success status. -/
def exampleOracle : NlpProblem → NlpInputs → NlpRaw :=
  fun _ _ => ⟨[0, 1, 5, 5, 5, 5], [("success", 0)]⟩

/-- A concrete resampling collaborator (identity on the variables). -/
def exampleResample : Iterate → List ℚ → Iterate :=
  fun it ts => ⟨it.vars, ts⟩

/-- **C3**: for every normalized grid and every pair of time values, the
time vector equals grid times (finalTime - initialTime) plus initialTime,
entrywise; and the times attached to a returned Solution are computed by
this formula from the solved initial-time and final-time decision
variables. -/
theorem createTimes_formula (grid : List ℚ) (initialTime finalTime : ℚ)
    (i : Nat) (t : Transcription) (resample : Iterate → List ℚ → Iterate)
    (nlpsolEval : NlpProblem → NlpInputs → NlpRaw) (guessOrig : Iterate) :
    (createTimes grid initialTime finalTime).length = grid.length ∧
    (createTimes grid initialTime finalTime)[i]? =
      grid[i]?.map (fun g => (finalTime - initialTime) * g + initialTime) ∧
    (solve t resample nlpsolEval guessOrig).2.1.times =
      createTimes t.m_grid
        (scalarOf (solve t resample nlpsolEval guessOrig).2.1.vars
          Var.initial_time)
        (scalarOf (solve t resample nlpsolEval guessOrig).2.1.vars
          Var.final_time) := by
  refine ⟨List.length_map _ _, ?_, rfl⟩
  unfold createTimes
  exact List.getElem?_map _ _ _

/-- **C4**: `setVariableBounds` writes, at every selected in-range entry of
the chosen block, the specification's lower and upper values when the
specification is set, and minus/plus infinity respectively when it is
unset. -/
theorem setVariableBounds_writes (t : Transcription) (var : Var)
    (rowIndices columnIndices : List Nat) (bounds : Bounds) (i j : Nat)
    (hi : i ∈ rowIndices) (hj : j ∈ columnIndices)
    (hkL : var ∈ Variables.keys t.m_lowerBounds)
    (hkU : var ∈ Variables.keys t.m_upperBounds)
    (hirL : i < (Variables.atD t.m_lowerBounds var).rows)
    (hjcL : j < (Variables.atD t.m_lowerBounds var).cols)
    (hirU : i < (Variables.atD t.m_upperBounds var).rows)
    (hjcU : j < (Variables.atD t.m_upperBounds var).cols)
    (hwfL : Mat.wf (Variables.atD t.m_lowerBounds var))
    (hwfU : Mat.wf (Variables.atD t.m_upperBounds var)) :
    Mat.entry? (Variables.atD
      (setVariableBounds t var rowIndices columnIndices bounds).m_lowerBounds
      var) i j = some (if bounds.isSet then bounds.lower else Double.negInf) ∧
    Mat.entry? (Variables.atD
      (setVariableBounds t var rowIndices columnIndices bounds).m_upperBounds
      var) i j = some (if bounds.isSet then bounds.upper else Double.posInf) := by
  cases hset : bounds.isSet
  · simp only [setVariableBounds, hset, Bool.false_eq_true, if_false]
    constructor
    · rw [atD_update_self t.m_lowerBounds var _ hkL]
      exact assign_entry _ _ _ _ _ _ hi hj hirL hjcL hwfL
    · rw [atD_update_self t.m_upperBounds var _ hkU]
      exact assign_entry _ _ _ _ _ _ hi hj hirU hjcU hwfU
  · simp only [setVariableBounds, hset, if_true]
    constructor
    · rw [atD_update_self t.m_lowerBounds var _ hkL]
      exact assign_entry _ _ _ _ _ _ hi hj hirL hjcL hwfL
    · rw [atD_update_self t.m_upperBounds var _ hkU]
      exact assign_entry _ _ _ _ _ _ hi hj hirU hjcU hwfU

/-- Witness for C4: an unset specification writes the infinities at the
selected entry of block 2. -/
theorem setVariableBounds_writes_witness :
    Mat.entry? (Variables.atD
      (setVariableBounds exampleTranscription 2 [1] [0]
        ⟨Double.fin 0, Double.fin 0, false⟩).m_lowerBounds 2) 1 0 =
      some (if (false : Bool) then Double.fin 0 else Double.negInf) ∧
    Mat.entry? (Variables.atD
      (setVariableBounds exampleTranscription 2 [1] [0]
        ⟨Double.fin 0, Double.fin 0, false⟩).m_upperBounds 2) 1 0 =
      some (if (false : Bool) then Double.fin 0 else Double.posInf) :=
  setVariableBounds_writes exampleTranscription 2 [1] [0]
    ⟨Double.fin 0, Double.fin 0, false⟩ 1 0 (by decide) (by decide)
    (by decide) (by decide) (by decide) (by decide) (by decide) (by decide)
    (by decide) (by decide)

/-- **C5**: bound inconsistency is never checked: a set specification whose
lower exceeds its upper is written by `setVariableBounds` exactly like any
other (no lower-versus-upper comparison occurs), and `solve` hands the
flattened lower/upper bound vectors to the external solver exactly as
stored, in its single invocation, with no consistency validation. -/
theorem bounds_not_validated (t : Transcription) (var : Var)
    (rowIndices columnIndices : List Nat) (lower upper : Double)
    (_hbad : ¬ Double.le lower upper)
    (resample : Iterate → List ℚ → Iterate)
    (nlpsolEval : NlpProblem → NlpInputs → NlpRaw) (guessOrig : Iterate) :
    setVariableBounds t var rowIndices columnIndices ⟨lower, upper, true⟩ =
      { t with
        m_lowerBounds := Variables.update t.m_lowerBounds var
          (fun m => Mat.assign m rowIndices columnIndices lower),
        m_upperBounds := Variables.update t.m_upperBounds var
          (fun m => Mat.assign m rowIndices columnIndices upper) } ∧
    (solve t resample nlpsolEval guessOrig).2.2.map
        (fun c => (c.2.lbx, c.2.ubx)) =
      [(flatten t.m_lowerBounds, flatten t.m_upperBounds)] :=
  ⟨rfl, rfl⟩

/-- Witness for C5 at an inconsistent specification (lower 1 above upper 0). -/
theorem bounds_not_validated_witness :
    setVariableBounds exampleTranscription 2 [1] [0]
        ⟨Double.fin 1, Double.fin 0, true⟩ =
      { exampleTranscription with
        m_lowerBounds := Variables.update exampleTranscription.m_lowerBounds 2
          (fun m => Mat.assign m [1] [0] (Double.fin 1)),
        m_upperBounds := Variables.update exampleTranscription.m_upperBounds 2
          (fun m => Mat.assign m [1] [0] (Double.fin 0)) } ∧
    (solve exampleTranscription exampleResample exampleOracle
        exampleGuess).2.2.map (fun c => (c.2.lbx, c.2.ubx)) =
      [(flatten exampleTranscription.m_lowerBounds,
        flatten exampleTranscription.m_upperBounds)] :=
  bounds_not_validated exampleTranscription 2 [1] [0] (Double.fin 1)
    (Double.fin 0) (by decide) exampleResample exampleOracle exampleGuess

/-- **C6**: `solve` invokes the external solver exactly once per call, with
no internal retries, and returns a Solution for every solver outcome (it is
a total function of the oracle's answer, so non-convergence is not thrown);
the statistics of that single invocation are attached to the Solution
untouched, for the caller to inspect. -/
theorem solve_single_invocation (t : Transcription)
    (resample : Iterate → List ℚ → Iterate)
    (nlpsolEval : NlpProblem → NlpInputs → NlpRaw) (guessOrig : Iterate) :
    (solve t resample nlpsolEval guessOrig).2.2.length = 1 ∧
    (solve t resample nlpsolEval guessOrig).2.2.map
        (fun c => (nlpsolEval c.1 c.2).stats) =
      [(solve t resample nlpsolEval guessOrig).2.1.stats] :=
  ⟨rfl, rfl⟩

/-- C7 as stated fails: with a nonempty plugin-options dictionary, `solve`
inserts the solver-specific options under the optimizer's name before
invoking the solver, so the dictionary the solver receives differs from the
plugin-options dictionary the configuration owner supplied. -/
theorem options_not_passed_unmodified :
    (solve exampleTranscription exampleResample exampleOracle
        exampleGuess).2.2.map (fun c => c.1.options) ≠
      [exampleTranscription.m_solver.pluginOptions] := by
  decide

/-- **C7 (amended)**: the options dictionary `solve` passes to the external
solver is determined by the solver configuration alone and its values are
never inspected: it is the plugin-options dictionary, augmented with the
solver-specific options stored under the optimizer-name key when the
plugin-options dictionary is nonempty (and passed as the empty dictionary
when it is empty). -/
theorem options_passthrough (t : Transcription)
    (resample : Iterate → List ℚ → Iterate)
    (nlpsolEval : NlpProblem → NlpInputs → NlpRaw) (guessOrig : Iterate) :
    (solve t resample nlpsolEval guessOrig).2.2.map (fun c => c.1.options) =
      [if t.m_solver.pluginOptions.isEmpty then t.m_solver.pluginOptions
       else Dict.set t.m_solver.pluginOptions t.m_solver.optimSolver
        t.m_solver.solverOptions] :=
  rfl

/-- **C9**: `solve` does not mutate the instance: the member state after a
call is the state before it (variable store, grid, bound matrices,
objective, constraint list — every member), and a second call with another
guess yields exactly the Solution a fresh identical instance would yield, so
the two Solutions share no leaked state. -/
theorem solve_no_mutation (t : Transcription)
    (resample : Iterate → List ℚ → Iterate)
    (nlpsolEval : NlpProblem → NlpInputs → NlpRaw) (g1 g2 : Iterate) :
    (solve t resample nlpsolEval g1).1 = t ∧
    (solve (solve t resample nlpsolEval g1).1 resample nlpsolEval g2).2.1 =
      (solve t resample nlpsolEval g2).2.1 :=
  ⟨rfl, rfl⟩

/-- The supported transcription schemes (the concrete derived classes that
override `createQuadratureCoefficientsImpl`). -/
inductive Scheme where
  | trapezoidal
  | hermiteSimpson
deriving DecidableEq, Repr

/-- Modelled from the spec: `createQuadratureCoefficientsImpl` of the
Trapezoidal scheme is not among the available sources (the header only
declares the pure-virtual hook).  Per the spec, the scheme uses one grid
point per mesh boundary (n + 1 points for n mesh intervals of width
h = 1 / n on the normalized interval) and trapezoidal weights: h/2 at the
two endpoints and h at every interior mesh point. -/
def trapezoidalQuadratureCoefficients (numMeshIntervals : Nat) : List ℚ :=
  h / 2 :: (List.replicate (numMeshIntervals - 1) h ++ [h / 2])
where h : ℚ := 1 / numMeshIntervals

/-- Modelled from the spec: `createQuadratureCoefficientsImpl` of the
Hermite-Simpson scheme, likewise absent from the sources.  Per the spec the
grid has a midpoint collocation point inside every mesh interval (2n + 1
points), and each interval contributes Simpson weights h/6, 4h/6, h/6, with
the shared interior mesh points merged to 2h/6. -/
def hermiteSimpsonQuadratureCoefficients (numMeshIntervals : Nat) : List ℚ :=
  h / 6 :: (List.replicate (numMeshIntervals - 1) [4 * h / 6, 2 * h / 6] ++
    [[4 * h / 6, h / 6]]).flatten
where h : ℚ := 1 / numMeshIntervals

/-- Modelled from the spec: the grid size of each scheme at a given mesh
density (`m_numGridPoints`). -/
def numGridPoints : Scheme → Nat → Nat
  | .trapezoidal, n => n + 1
  | .hermiteSimpson, n => 2 * n + 1

/-- `Transcription::createQuadratureCoefficients`, dispatching to the
scheme's `createQuadratureCoefficientsImpl` (the virtual call). -/
def createQuadratureCoefficients : Scheme → Nat → List ℚ
  | .trapezoidal, n => trapezoidalQuadratureCoefficients n
  | .hermiteSimpson, n => hermiteSimpsonQuadratureCoefficients n

/-- **C8**: for every supported scheme and every mesh density of at least 1,
the quadrature-coefficient vector has length equal to the number of grid
points and its entries sum to exactly 1 (the normalized interval length). -/
theorem quadrature_length_and_sum (s : Scheme) (n : Nat) (hn : 1 ≤ n) :
    (createQuadratureCoefficients s n).length = numGridPoints s n ∧
    (createQuadratureCoefficients s n).sum = 1 := by
  have hq : (n : ℚ) ≠ 0 := Nat.cast_ne_zero.mpr (by omega)
  have hc : ((n - 1 : Nat) : ℚ) = (n : ℚ) - 1 := by
    push_cast [Nat.cast_sub hn]
    ring
  cases s
  · constructor
    · simp [createQuadratureCoefficients, numGridPoints,
        trapezoidalQuadratureCoefficients]
      omega
    · simp only [createQuadratureCoefficients,
        trapezoidalQuadratureCoefficients, List.sum_cons, List.sum_append,
        List.sum_replicate, nsmul_eq_mul, hc, List.sum_cons, List.sum_nil]
      unfold trapezoidalQuadratureCoefficients.h
      field_simp
      ring
  · constructor
    · simp [createQuadratureCoefficients, numGridPoints,
        hermiteSimpsonQuadratureCoefficients]
      omega
    · simp only [createQuadratureCoefficients,
        hermiteSimpsonQuadratureCoefficients, List.sum_cons, List.sum_flatten,
        List.map_append, List.map_replicate, List.sum_append,
        List.sum_replicate, List.map_cons, List.map_nil, List.sum_cons,
        List.sum_nil, nsmul_eq_mul, hc]
      unfold hermiteSimpsonQuadratureCoefficients.h
      field_simp
      ring

/-- Witness for C8 at the Hermite-Simpson scheme with mesh density 3. -/
theorem quadrature_length_and_sum_witness :
    (createQuadratureCoefficients Scheme.hermiteSimpson 3).length =
      numGridPoints Scheme.hermiteSimpson 3 ∧
    (createQuadratureCoefficients Scheme.hermiteSimpson 3).sum = 1 :=
  quadrature_length_and_sum Scheme.hermiteSimpson 3 (by decide)

end CasOC
